import Mathlib

/-!
# Verification of the awsl-video chunked storage/streaming core

Shallow embedding of the chunk codec (`src/backend/utils/compression.py`),
the chunk splitter (`src/backend/storage.py`), the finalize-upload endpoint
(`src/backend/routes/admin.py`) and the range-stream reconstructor described
by the design document, together with proofs and refutations of the
specification's claims about them.

Python strings are modelled as `List Char`, bytes as `List Nat`, and the
relevant standard-library primitives (`str.split`, `str.join`, `int(...)`,
`str(int)`) are given executable models below.
-/

set_option linter.unusedVariables false

/-- Python `str` values, modelled as their character sequences. -/
abbrev Str := List Char

/-- A single byte of a binary stream (`bytes` element). -/
abbrev Byte := Nat

/-! ## Models of the Python string primitives used by `compression.py` -/

/-- Model of Python `s.split(sep)` for a single-character separator:
splits at every occurrence of `sep`; the result always has one more part
than there are separators, so `"".split(sep) == [""]`. -/
def pySplit (sep : Char) : Str → List Str
  | [] => [[]]
  | c :: rest =>
    let r := pySplit sep rest
    if c = sep then [] :: r
    else
      match r with
      | h :: t => (c :: h) :: t
      | [] => [[c]]

/-- Model of Python `','.join(parts)`. -/
def joinComma : List Str → Str
  | [] => []
  | [s] => s
  | s :: rest => s ++ ',' :: joinComma rest

/-- The ASCII whitespace characters stripped by Python `int(str)`. -/
def isPySpace (c : Char) : Bool :=
  c = ' ' || c = '\t' || c = '\n' || c = '\r' || c = '\x0b' || c = '\x0c'

/-- Strip leading and trailing whitespace, as Python `int(...)` does before
parsing its argument. -/
def stripWs (s : Str) : Str :=
  ((s.dropWhile isPySpace).reverse.dropWhile isPySpace).reverse

/-- Decimal value of an ASCII digit character. -/
def digitVal (c : Char) : Nat := c.toNat - '0'.toNat

/-- Core digit scanner of Python `int(...)`: a non-empty digit run in which
an underscore may appear only between two digits.  `prevDigit` records
whether the previously consumed character was a digit. -/
def parseDigitsRun (acc : Nat) (prevDigit : Bool) : Str → Option Nat
  | [] => if prevDigit then some acc else none
  | c :: rest =>
    if c.isDigit then parseDigitsRun (10 * acc + digitVal c) true rest
    else if c = '_' && prevDigit then parseDigitsRun acc false rest
    else none

/-- Digit-run parser entry point (no sign, no surrounding whitespace). -/
def parseDigitsU (s : Str) : Option Nat := parseDigitsRun 0 false s

/-- Model of Python `int(s)` on ASCII inputs: optional surrounding
whitespace, optional `+`/`-` sign, then a non-empty digit run with
underscores allowed only between digits.  Returns `none` where Python
raises `ValueError`. -/
def pyIntParse (s : Str) : Option Int :=
  match stripWs s with
  | [] => none
  | c :: rest =>
    if c = '-' then (parseDigitsU rest).map (fun v => -(v : Int))
    else if c = '+' then (parseDigitsU rest).map (fun v => (v : Int))
    else (parseDigitsU (c :: rest)).map (fun v => (v : Int))

/-- Decimal rendering of a natural number as Python `str` produces it. -/
def pyStrNat (n : Nat) : Str :=
  if n = 0 then ['0'] else (Nat.digits 10 n).reverse.map Nat.digitChar

/-- Model of Python `str(i)` for `int` values. -/
def pyStrInt (i : Int) : Str :=
  if i < 0 then '-' :: pyStrNat i.natAbs else pyStrNat i.natAbs

/-! ## The chunk codec (`src/backend/utils/compression.py`)

`compress_chunks`/`decompress_chunks` wrap two external libraries:
`zlib` raw-deflate at level 9 and `base64` with the url-safe character
substitutions and padding stripped.  They are modelled as an abstract
codec carrying exactly the contract those libraries document and the
rest of `compression.py` relies on:

* decompressing a compressed string recovers it exactly (zlib deflate is
  lossless, and base64url decoding after re-padding inverts encoding);
* the compressed output is drawn from the base64url alphabet, which does
  not contain `':'` (this is what `parse_chunks_param`'s auto-detection
  relies on);
* decompressing the empty string fails (`base64.b64decode('') == b''`
  and `zlib.decompress(b'', wbits=-15)` raises on the truncated stream);
  `decompress_chunks` returns `none` where the Python code raises.
-/
structure DeflateBase64Codec where
  compress_chunks : Str → Str
  decompress_chunks : Str → Option Str
  decompress_compress : ∀ s, decompress_chunks (compress_chunks s) = some s
  colon_not_mem_compress : ∀ s, ':' ∉ compress_chunks s
  decompress_nil : decompress_chunks [] = none

/-- The plain rendering `','.join(f"{file_id}:{size}" for file_id, size in
chunks)` built by `build_chunks_param`. -/
def plainParam (chunks : List (Str × Int)) : Str :=
  joinComma (chunks.map fun p => p.1 ++ ':' :: pyStrInt p.2)

/-- Model of `build_chunks_param(chunks, use_compression)`:
`use_compression = none` models the Python default `None`, in which case
compression is used exactly when there are more than 5 chunks or the plain
string is longer than 200 characters. -/
def build_chunks_param (C : DeflateBase64Codec) (chunks : List (Str × Int))
    (use_compression : Option Bool) : Str :=
  let plain := plainParam chunks
  let uc := match use_compression with
    | none => decide (chunks.length > 5) || decide (plain.length > 200)
    | some b => b
  if uc then C.compress_chunks plain else plain

/-- The `ValueError`s raised by `parse_chunks_param`, carrying the text
interpolated into their messages. -/
inductive ParseErr where
  /-- `"Failed to decompress chunks data: ..."`, raised for the whole token. -/
  | decompressFailed (token : Str)
  /-- `"Invalid chunk format: {chunk_str}"`. -/
  | invalidFormat (chunkStr : Str)
  /-- `"Invalid chunk size: {size_str}"`. -/
  | invalidSize (sizeStr : Str)
deriving DecidableEq

/-- The loop body of `parse_chunks_param` over `data.split(',')`: empty
parts are skipped (`if not chunk_str: continue`); a part that does not
split on `':'` into exactly two pieces raises `Invalid chunk format`;
a size that `int(...)` rejects raises `Invalid chunk size`. -/
def parseChunkEntries : List Str → Except ParseErr (List (Str × Int))
  | [] => .ok []
  | seg :: rest =>
    if seg = [] then parseChunkEntries rest
    else
      match pySplit ':' seg with
      | [fileId, sizeStr] =>
        match pyIntParse sizeStr with
        | some n => (parseChunkEntries rest).map (fun l => (fileId, n) :: l)
        | none => .error (.invalidSize sizeStr)
      | _ => .error (.invalidFormat seg)

/-- The `data` value `parse_chunks_param` goes on to split: the token
itself when it contains a colon, otherwise the result of
`decompress_chunks` (`none` models the re-raised decompression failure). -/
def chunksData (C : DeflateBase64Codec) (chunks_param : Str) : Option Str :=
  if ':' ∈ chunks_param then some chunks_param
  else C.decompress_chunks chunks_param

/-- Model of `parse_chunks_param(chunks_param)`. -/
def parse_chunks_param (C : DeflateBase64Codec) (chunks_param : Str) :
    Except ParseErr (List (Str × Int)) :=
  match chunksData C chunks_param with
  | none => .error (.decompressFailed chunks_param)
  | some data => parseChunkEntries (pySplit ',' data)

/-- The claim's validity assumption on a chunk list: positive sizes and
opaque ids free of `':'` and `','`. -/
def ValidChunks (chunks : List (Str × Int)) : Prop :=
  ∀ p ∈ chunks, 0 < p.2 ∧ ':' ∉ p.1 ∧ ',' ∉ p.1

instance : DecidablePred ValidChunks := fun _ => List.decidableBAll _ _

/-! A concrete executable codec satisfying the `DeflateBase64Codec`
contract, used to instantiate the universally-quantified theorems on
concrete inputs.  It escapes the characters `':'`, `','`, `'A'` behind the
marker `'A'` and prepends `'Z'`, so outputs are colon-free, decoding
inverts encoding, and decoding the empty string fails. -/

/-- Escape one character (colon-free output alphabet). -/
def escChar (c : Char) : Str :=
  if c = ':' then ['A', 'a']
  else if c = ',' then ['A', 'b']
  else if c = 'A' then ['A', 'c']
  else [c]

/-- Escape a whole string. -/
def escEncode (s : Str) : Str := (s.map escChar).flatten

/-- Inverse of `escEncode`. -/
def escDecode : Str → Option Str
  | [] => some []
  | c :: rest =>
    if c = 'A' then
      match rest with
      | [] => none
      | d :: rest2 =>
        (if d = 'a' then some ':' else if d = 'b' then some ','
         else if d = 'c' then some 'A' else none).bind
          fun ch => (escDecode rest2).map (fun t => ch :: t)
    else (escDecode rest).map (fun t => c :: t)

/-- The compression half of the concrete codec. -/
def escComp (s : Str) : Str := 'Z' :: escEncode s

/-- The decompression half of the concrete codec. -/
def escDecomp : Str → Option Str
  | [] => none
  | c :: rest => if c = 'Z' then escDecode rest else none

/-- The concrete codec instance. -/
def escCodec : DeflateBase64Codec where
  compress_chunks := escComp
  decompress_chunks := escDecomp
  decompress_compress := fun s => by
    have hne : ∀ (c : Char) (l : Str), ¬ c = 'A' →
        escDecode (c :: l) = (escDecode l).map (fun t => c :: t) := by
      intro c l h
      conv_lhs => rw [escDecode.eq_def]
      simp only [if_neg h]
    have hpair : ∀ (d : Char) (l : Str),
        escDecode ('A' :: d :: l) =
          (if d = 'a' then some ':' else if d = 'b' then some ','
           else if d = 'c' then some 'A' else none).bind
            (fun ch => (escDecode l).map (fun t => ch :: t)) := by
      intro d l
      conv_lhs => rw [escDecode.eq_def]
      simp
    have main : ∀ t : Str, escDecode (escEncode t) = some t := by
      intro t
      induction t with
      | nil => rfl
      | cons c rest ih =>
        show escDecode (escChar c ++ escEncode rest) = _
        by_cases h1 : c = ':'
        · subst h1; simp [escChar, hpair, ih]
        · by_cases h2 : c = ','
          · subst h2; simp [escChar, hpair, ih]
          · by_cases h3 : c = 'A'
            · subst h3; simp [escChar, hpair, ih]
            · simp [escChar, h1, h2, h3, hne, ih]
    show escDecomp ('Z' :: escEncode s) = some s
    simp [escDecomp, main s]
  colon_not_mem_compress := fun s => by
    intro hmem
    rcases List.mem_cons.mp hmem with h | h
    · exact absurd h.symm (by decide)
    · rw [escEncode, List.mem_flatten] at h
      rcases h with ⟨l, hl, hcl⟩
      rcases List.mem_map.mp hl with ⟨c, _, rfl⟩
      revert hcl
      by_cases h1 : c = ':'
      · subst h1; simp [escChar]
      · by_cases h2 : c = ','
        · subst h2; simp [escChar]
        · by_cases h3 : c = 'A'
          · subst h3; simp [escChar]
          · simp [escChar, h1, h2, h3]
            intro h; exact h1 h.symm
  decompress_nil := rfl

/-- The entry a single comma-separated segment parses to, if any. -/
def segEntry (seg : Str) : Option (Str × Int) :=
  match pySplit ':' seg with
  | [fileId, sizeStr] => (pyIntParse sizeStr).map (fun n => (fileId, n))
  | _ => none

/-- Whether a segment is well-formed (`id:size` with parseable size). -/
def segWellFormed (seg : Str) : Bool := (segEntry seg).isSome

/-- The `ValueError` a malformed non-empty segment triggers: wrong number
of colon-separated parts gives `Invalid chunk format`, an unparseable
size gives `Invalid chunk size`. -/
def segErr (seg : Str) : ParseErr :=
  match pySplit ':' seg with
  | [_, sizeStr] => .invalidSize sizeStr
  | _ => .invalidFormat seg

/-! ## The chunk splitter (`src/backend/storage.py`) -/

/-- `CHUNK_SIZE = 10 * 1024 * 1024  # 10MB`. -/
def CHUNK_SIZE : Nat := 10 * 1024 * 1024

/-- The sequence of `chunk_data` values read by the
`upload_file_in_chunks` loop: `file.read(CHUNK_SIZE)` returns the next
`CHUNK_SIZE` bytes (fewer at the end) and the loop stops on an empty
read. -/
def splitIntoChunks : List Byte → List (List Byte)
  | [] => []
  | b :: bs => ((b :: bs).take CHUNK_SIZE) :: splitIntoChunks ((b :: bs).drop CHUNK_SIZE)
termination_by l => l.length
decreasing_by
  simp only [List.length_drop, List.length_cons]
  show _ - CHUNK_SIZE < _
  have : 0 < CHUNK_SIZE := by decide
  omega

/-- Model of `upload_file_in_chunks(file, filename)`: each chunk is
uploaded through the external blob backend (`upload_chunk`, modelled by
`put`, which returns the backend-assigned `file_id`), and the returned
`chunks_info` entries are `(chunk_index, file_id, chunk_size)` with
`chunk_size = len(chunk_data)`. -/
def upload_file_in_chunks (put : Nat → List Byte → Str) (file : List Byte) :
    List (Nat × Str × Nat) :=
  (splitIntoChunks file).enum.map fun p => (p.1, put p.1 p.2, p.2.length)

/-! ## The finalize-upload endpoint (`src/backend/routes/admin.py`)

`finalize_episode_upload` runs against the `video_chunks` rows of one
episode.  The database is modelled as the committed row set of that
episode together with the session's pending view of it: other readers see
only committed state, and `db.commit()` publishes the session view.  The
handler body is the straight-line program: delete each existing chunk row,
commit, add one row per requested chunk, commit. -/

/-- A `VideoChunk` row (`src/backend/models.py`), restricted to the fields
the finalize endpoint writes; `episode_id` is fixed to the episode under
consideration and omitted. -/
structure VideoChunk where
  chunk_index : Int
  file_id : Str
  chunk_size : Int
deriving DecidableEq

/-- Modelled from the spec: the `ChunkInfo` element type of
`FinalizeVideoUploadRequest.chunks` is imported from `..schemas` by
`admin.py` but its declaration is not under `src/`.  Its fields are taken
from its uses in `finalize_episode_upload` (`chunk_info.chunk_index`,
`chunk_info.file_id`, `chunk_info.file_size or chunk_info.chunk_size or 0`
— the `or`-chain shows both size fields can be `None`), following the
validator-free style of every schema in `src/backend/schemas.py` and the
spec's description of the entry point as accepting a caller-supplied list
of opaque-id/size pairs. -/
structure ChunkInfo where
  chunk_index : Int
  file_id : Str
  file_size : Option Int
  chunk_size : Option Int
deriving DecidableEq

/-- Python `a or b` for an optional integer `a`: `None` and `0` are falsy. -/
def pyOrInt (a : Option Int) (b : Int) : Int :=
  match a with
  | none => b
  | some x => if x = 0 then b else x

/-- The rows inserted by the finalize loop:
`VideoChunk(episode_id=..., chunk_index=..., file_id=...,
chunk_size=chunk_info.file_size or chunk_info.chunk_size or 0)`. -/
def newRowsOf (req : List ChunkInfo) : List VideoChunk :=
  req.map fun ci =>
    { chunk_index := ci.chunk_index
      file_id := ci.file_id
      chunk_size := pyOrInt ci.file_size (pyOrInt ci.chunk_size 0) }

/-- One session-level micro-operation of the handler body. -/
inductive FStep where
  /-- `await db.delete(chunk)` -/
  | del (r : VideoChunk)
  /-- `db.add(db_chunk)` -/
  | add (r : VideoChunk)
  /-- `await db.commit()` -/
  | commit
deriving DecidableEq

/-- A database state: the committed rows (what concurrent readers
observe) and the session's pending view. -/
abbrev DbState := List VideoChunk × List VideoChunk

/-- Effect of one micro-operation: deletes and adds change only the
session view; a commit publishes it. -/
def applyStep (st : DbState) : FStep → DbState
  | .del r => (st.1, st.2.erase r)
  | .add r => (st.1, st.2 ++ [r])
  | .commit => (st.2, st.2)

/-- Run a step list, returning the successive states (one per step). -/
def runSteps : List FStep → DbState → List DbState
  | [], _ => []
  | s :: rest, st =>
    let st2 := applyStep st s
    st2 :: runSteps rest st2

/-- Final state after a step list. -/
def applyAll (steps : List FStep) (st : DbState) : DbState :=
  steps.foldl applyStep st

/-- The straight-line body of `finalize_episode_upload` once the episode
is found: delete every existing chunk row, commit, add the new rows in
request order, commit. -/
def finalizeProgram (existing : List VideoChunk) (req : List ChunkInfo) :
    List FStep :=
  existing.map .del ++ [.commit] ++ (newRowsOf req).map .add ++ [.commit]

/-- Every committed row set a concurrent reader can observe while the
handler runs: the initial one plus the committed component after each
micro-operation. -/
def observableStates (existing : List VideoChunk) (req : List ChunkInfo) :
    List (List VideoChunk) :=
  existing :: (runSteps (finalizeProgram existing req) (existing, existing)).map Prod.fst

/-- The handler's successful response payload (`chunks_count`) together
with the committed states its execution exposed. -/
structure FinalizeResult where
  states : List (List VideoChunk)
  chunks_count : Nat
deriving DecidableEq

/-- Model of `finalize_episode_upload(episode_id, request)`: 404 if the
episode does not exist, otherwise the delete-commit-insert-commit program
runs and the response reports `len(request.chunks)`.  No other validation
is performed. -/
def finalize_episode_upload (episodeExists : Bool) (existing : List VideoChunk)
    (req : List ChunkInfo) : Except Nat FinalizeResult :=
  if episodeExists then
    .ok { states := observableStates existing req, chunks_count := req.length }
  else
    .error 404

/-! ## The range stream reconstructor -/

/-- Modelled from the spec: the RangeStreamReconstructor of §4.3 is not
under `src/` — the only related code there, `stream_video` in
`src/backend/routes/user.py`, redirects to the external
awsl-telegram-storage service that hosts it.  Following the spec's
algorithm: walk the chunks in order keeping `current_pos`; skip a chunk
whose `chunk_end < range_start`; stop once `chunk_start >
range_end_inclusive`; for an overlapping chunk fetch its bytes and yield
the sub-slice `[max(0, range_start - chunk_start) : min(byte_size,
range_end_inclusive - chunk_start + 1)]`. -/
def rangeSlices (s e : Nat) : Nat → List (List Byte) → List (List Byte)
  | _, [] => []
  | pos, c :: rest =>
    if e < pos then []
    else if pos + c.length - 1 < s then rangeSlices s e (pos + c.length) rest
    else ((c.take (min c.length (e - pos + 1))).drop (s - pos))
      :: rangeSlices s e (pos + c.length) rest

/-! ## Lemmas: `pySplit` and `joinComma` -/

theorem pySplit_ne_nil (sep : Char) (l : Str) : pySplit sep l ≠ [] := by
  induction l with
  | nil => simp [pySplit]
  | cons c rest ih =>
    simp only [pySplit]
    by_cases h : c = sep
    · simp [h]
    · simp only [if_neg h]
      cases hr : pySplit sep rest with
      | nil => simp
      | cons a t => simp

theorem pySplit_no_sep (sep : Char) (l : Str) (h : sep ∉ l) :
    pySplit sep l = [l] := by
  induction l with
  | nil => rfl
  | cons c rest ih =>
    have hc : ¬ c = sep := fun hc => h (hc ▸ List.mem_cons_self c rest)
    have hrest : sep ∉ rest := fun hr => h (List.mem_cons_of_mem c hr)
    simp only [pySplit, if_neg hc, ih hrest]

theorem pySplit_append_sep (sep : Char) (a b : Str) (h : sep ∉ a) :
    pySplit sep (a ++ sep :: b) = a :: pySplit sep b := by
  induction a with
  | nil => simp [pySplit]
  | cons c rest ih =>
    have hc : ¬ c = sep := fun hc => h (hc ▸ List.mem_cons_self c rest)
    have hrest : sep ∉ rest := fun hr => h (List.mem_cons_of_mem c hr)
    simp only [List.cons_append, pySplit, if_neg hc, List.append_eq, ih hrest]

theorem pySplit_joinComma (pieces : List Str) (hne : pieces ≠ [])
    (h : ∀ p ∈ pieces, ',' ∉ p) :
    pySplit ',' (joinComma pieces) = pieces := by
  induction pieces with
  | nil => exact absurd rfl hne
  | cons p rest ih =>
    cases rest with
    | nil =>
      show pySplit ',' p = [p]
      exact pySplit_no_sep ',' p (h p (List.mem_cons_self p []))
    | cons q rest2 =>
      show pySplit ',' (p ++ ',' :: joinComma (q :: rest2)) = _
      rw [pySplit_append_sep ',' p _ (h p (List.mem_cons_self p _))]
      rw [ih (by simp) (fun x hx => h x (List.mem_cons_of_mem p hx))]

theorem mem_joinComma_of_mem_head {p : Str} {pieces : List Str} {c : Char}
    (hc : c ∈ p) : c ∈ joinComma (p :: pieces) := by
  cases pieces with
  | nil => exact hc
  | cons q rest =>
    show c ∈ p ++ ',' :: joinComma (q :: rest)
    exact List.mem_append_left _ hc

/-! ## Lemmas: `str(int)` / `int(str)` round trip -/

theorem digitChar_facts (d : Nat) (h : d < 10) :
    (Nat.digitChar d).isDigit = true ∧ digitVal (Nat.digitChar d) = d ∧
    isPySpace (Nat.digitChar d) = false ∧ ¬ Nat.digitChar d = '-' ∧
    ¬ Nat.digitChar d = '+' ∧ ¬ Nat.digitChar d = ',' ∧
    ¬ Nat.digitChar d = ':' := by
  interval_cases d <;> decide

theorem mem_pyStrNat (n : Nat) {c : Char} (hc : c ∈ pyStrNat n) :
    ∃ d, d < 10 ∧ c = Nat.digitChar d := by
  unfold pyStrNat at hc
  by_cases h0 : n = 0
  · rw [if_pos h0] at hc
    exact ⟨0, by decide, by simpa using hc⟩
  · rw [if_neg h0] at hc
    rcases List.mem_map.mp hc with ⟨d, hd, rfl⟩
    exact ⟨d, Nat.digits_lt_base (by norm_num) (List.mem_reverse.mp hd), rfl⟩

theorem mem_pyStrInt (i : Int) {c : Char} (hc : c ∈ pyStrInt i) :
    c = '-' ∨ ∃ d, d < 10 ∧ c = Nat.digitChar d := by
  unfold pyStrInt at hc
  by_cases hneg : i < 0
  · rw [if_pos hneg] at hc
    rcases List.mem_cons.mp hc with h | h
    · exact Or.inl h
    · exact Or.inr (mem_pyStrNat _ h)
  · rw [if_neg hneg] at hc
    exact Or.inr (mem_pyStrNat _ hc)

theorem dropWhile_eq_self_of_not {p : Char → Bool} {l : Str}
    (h : ∀ c ∈ l, p c = false) : l.dropWhile p = l := by
  cases l with
  | nil => rfl
  | cons c rest =>
    rw [List.dropWhile_cons, h c (List.mem_cons_self c rest)]
    simp

theorem stripWs_eq_self {s : Str} (h : ∀ c ∈ s, isPySpace c = false) :
    stripWs s = s := by
  unfold stripWs
  rw [dropWhile_eq_self_of_not h,
    dropWhile_eq_self_of_not (fun c hc => h c (List.mem_reverse.mp hc)),
    List.reverse_reverse]

theorem parseDigitsRun_digits (ds : List Nat) :
    ∀ (acc : Nat) (b : Bool), (∀ d ∈ ds, d < 10) → ds ≠ [] →
    parseDigitsRun acc b (ds.map Nat.digitChar) =
      some (ds.foldl (fun a d => 10 * a + d) acc) := by
  induction ds with
  | nil => intro _ _ _ hne; exact absurd rfl hne
  | cons d rest ih =>
    intro acc b hlt _
    have hd := digitChar_facts d (hlt d (List.mem_cons_self d rest))
    simp only [List.map_cons, parseDigitsRun, hd.1, if_pos, hd.2.1]
    cases rest with
    | nil => simp [parseDigitsRun]
    | cons e rest2 =>
      rw [ih (10 * acc + d) true
        (fun x hx => hlt x (List.mem_cons_of_mem d hx)) (by simp)]
      rfl

theorem foldl_reverse_ofDigits (l : List Nat) :
    ∀ acc : Nat, l.reverse.foldl (fun a d => 10 * a + d) acc =
      acc * 10 ^ l.length + Nat.ofDigits 10 l := by
  induction l with
  | nil => intro acc; simp [Nat.ofDigits]
  | cons d rest ih =>
    intro acc
    rw [List.reverse_cons, List.foldl_append, ih acc]
    simp only [List.foldl_cons, List.foldl_nil, Nat.ofDigits_cons,
      List.length_cons, pow_succ]
    ring

theorem parseDigitsU_pyStrNat (n : Nat) : parseDigitsU (pyStrNat n) = some n := by
  by_cases h0 : n = 0
  · subst h0; decide
  · unfold pyStrNat parseDigitsU
    rw [if_neg h0]
    rw [parseDigitsRun_digits _ 0 false
      (fun d hd => Nat.digits_lt_base (by norm_num) (List.mem_reverse.mp hd))
      (by simpa using Nat.digits_ne_nil_iff_ne_zero.mpr h0)]
    rw [foldl_reverse_ofDigits]
    simp [Nat.ofDigits_digits]

theorem pyStrNat_shape (n : Nat) :
    ∃ d rest, d < 10 ∧ pyStrNat n = Nat.digitChar d :: rest := by
  have hne : pyStrNat n ≠ [] := by
    unfold pyStrNat
    by_cases h0 : n = 0
    · simp [h0]
    · rw [if_neg h0]
      simpa using Nat.digits_ne_nil_iff_ne_zero.mpr h0
  cases hs : pyStrNat n with
  | nil => exact absurd hs hne
  | cons c rest =>
    have hc : c ∈ pyStrNat n := hs ▸ List.mem_cons_self c rest
    rcases mem_pyStrNat n hc with ⟨d, hd, rfl⟩
    exact ⟨d, rest, hd, rfl⟩

theorem pyIntParse_of_stripWs_cons {s : Str} {c : Char} {rest : Str}
    (h : stripWs s = c :: rest) :
    pyIntParse s =
      (if c = '-' then (parseDigitsU rest).map (fun v => -(v : Int))
       else if c = '+' then (parseDigitsU rest).map (fun v => (v : Int))
       else (parseDigitsU (c :: rest)).map (fun v => (v : Int))) := by
  unfold pyIntParse
  rw [h]

theorem pyIntParse_pyStrInt (i : Int) : pyIntParse (pyStrInt i) = some i := by
  have hstrip : stripWs (pyStrInt i) = pyStrInt i := by
    refine stripWs_eq_self (fun c hc => ?_)
    rcases mem_pyStrInt i hc with rfl | ⟨d, hd, rfl⟩
    · decide
    · exact (digitChar_facts d hd).2.2.1
  rcases pyStrNat_shape i.natAbs with ⟨d, rest, hd, hshape⟩
  by_cases hneg : i < 0
  · have hrender : pyStrInt i = '-' :: pyStrNat i.natAbs := by
      unfold pyStrInt; rw [if_pos hneg]
    rw [hrender] at hstrip ⊢
    rw [pyIntParse_of_stripWs_cons hstrip, if_pos rfl, parseDigitsU_pyStrNat]
    show some (-(i.natAbs : Int)) = some i
    exact congrArg some (by omega)
  · have hrender : pyStrInt i = pyStrNat i.natAbs := by
      unfold pyStrInt; rw [if_neg hneg]
    rw [hrender] at hstrip ⊢
    rw [hshape] at hstrip ⊢
    rw [pyIntParse_of_stripWs_cons hstrip,
      if_neg (digitChar_facts d hd).2.2.2.1, if_neg (digitChar_facts d hd).2.2.2.2.1,
      ← hshape, parseDigitsU_pyStrNat]
    show some ((i.natAbs : Int)) = some i
    exact congrArg some (by omega)

/-! ## Lemmas: parsing well-formed tokens -/

theorem comma_not_mem_pyStrInt (i : Int) : ',' ∉ pyStrInt i := by
  intro h
  rcases mem_pyStrInt i h with heq | ⟨d, hd, heq⟩
  · exact absurd heq (by decide)
  · exact (digitChar_facts d hd).2.2.2.2.2.1 heq.symm

theorem colon_not_mem_pyStrInt (i : Int) : ':' ∉ pyStrInt i := by
  intro h
  rcases mem_pyStrInt i h with heq | ⟨d, hd, heq⟩
  · exact absurd heq (by decide)
  · exact (digitChar_facts d hd).2.2.2.2.2.2 heq.symm

theorem pySplit_colon_entry (fid sstr : Str) (h1 : ':' ∉ fid) (h2 : ':' ∉ sstr) :
    pySplit ':' (fid ++ ':' :: sstr) = [fid, sstr] := by
  rw [pySplit_append_sep ':' fid sstr h1, pySplit_no_sep ':' sstr h2]

theorem parse_chunks_param_of_colon {C : DeflateBase64Codec} {s : Str}
    (h : ':' ∈ s) :
    parse_chunks_param C s = parseChunkEntries (pySplit ',' s) := by
  unfold parse_chunks_param chunksData
  rw [if_pos h]

theorem parse_chunks_param_of_decomp {C : DeflateBase64Codec} {s t : Str}
    (hns : ':' ∉ s) (hd : C.decompress_chunks s = some t) :
    parse_chunks_param C s = parseChunkEntries (pySplit ',' t) := by
  unfold parse_chunks_param chunksData
  rw [if_neg hns, hd]

theorem parse_chunks_param_of_decomp_fail {C : DeflateBase64Codec} {s : Str}
    (hns : ':' ∉ s) (hd : C.decompress_chunks s = none) :
    parse_chunks_param C s = .error (.decompressFailed s) := by
  unfold parse_chunks_param chunksData
  rw [if_neg hns, hd]

theorem parseChunkEntries_wf (entries : List (Str × Str × Int))
    (h : ∀ t ∈ entries, ':' ∉ t.1 ∧ ':' ∉ t.2.1 ∧ pyIntParse t.2.1 = some t.2.2) :
    parseChunkEntries (entries.map fun t => t.1 ++ ':' :: t.2.1) =
      .ok (entries.map fun t => (t.1, t.2.2)) := by
  induction entries with
  | nil => rfl
  | cons t rest ih =>
    have ht := h t (List.mem_cons_self t rest)
    have hpiece : t.1 ++ ':' :: t.2.1 ≠ [] := by simp
    simp only [List.map_cons, parseChunkEntries, if_neg hpiece,
      pySplit_colon_entry t.1 t.2.1 ht.1 ht.2.1, ht.2.2,
      ih (fun x hx => h x (List.mem_cons_of_mem t hx))]
    rfl

/-- The full parse of a well-formed plain token built from `entries` by
joining `fid ++ ":" ++ sstr` pieces with commas. -/
theorem parse_chunks_param_wf_token (C : DeflateBase64Codec)
    (entries : List (Str × Str × Int)) (hne : entries ≠ [])
    (h : ∀ t ∈ entries, ':' ∉ t.1 ∧ ',' ∉ t.1 ∧ ':' ∉ t.2.1 ∧ ',' ∉ t.2.1 ∧
      pyIntParse t.2.1 = some t.2.2) :
    parse_chunks_param C (joinComma (entries.map fun t => t.1 ++ ':' :: t.2.1)) =
      .ok (entries.map fun t => (t.1, t.2.2)) := by
  have hpieces_ne : entries.map (fun t => t.1 ++ ':' :: t.2.1) ≠ [] := by
    simpa using hne
  have hcomma : ∀ p ∈ entries.map (fun t => t.1 ++ ':' :: t.2.1), ',' ∉ p := by
    intro p hp
    rcases List.mem_map.mp hp with ⟨t, ht, rfl⟩
    intro hmem
    rcases List.mem_append.mp hmem with hmem | hmem
    · exact (h t ht).2.1 hmem
    · rcases List.mem_cons.mp hmem with heq | hmem
      · exact absurd heq (by decide)
      · exact (h t ht).2.2.2.1 hmem
  have hcolon : ':' ∈ joinComma (entries.map fun t => t.1 ++ ':' :: t.2.1) := by
    cases entries with
    | nil => exact absurd rfl hne
    | cons t rest =>
      simp only [List.map_cons]
      exact mem_joinComma_of_mem_head
        (List.mem_append_right _ (List.mem_cons_self ':' _))
  rw [parse_chunks_param_of_colon hcolon]
  rw [pySplit_joinComma _ hpieces_ne hcomma]
  exact parseChunkEntries_wf entries (fun t ht =>
    ⟨(h t ht).1, (h t ht).2.2.1, (h t ht).2.2.2.2⟩)

theorem colon_mem_plainParam {chunks : List (Str × Int)} (hne : chunks ≠ []) :
    ':' ∈ plainParam chunks := by
  cases chunks with
  | nil => exact absurd rfl hne
  | cons p rest =>
    unfold plainParam
    simp only [List.map_cons]
    exact mem_joinComma_of_mem_head
      (List.mem_append_right _ (List.mem_cons_self ':' _))

theorem plainParam_as_entries (chunks : List (Str × Int)) :
    plainParam chunks =
      joinComma ((chunks.map fun p => (p.1, pyStrInt p.2, p.2)).map
        fun t => t.1 ++ ':' :: t.2.1) := by
  unfold plainParam
  rw [List.map_map]
  rfl

theorem parse_plainParam (C : DeflateBase64Codec) (chunks : List (Str × Int))
    (hne : chunks ≠ []) (hvalid : ValidChunks chunks) :
    parse_chunks_param C (plainParam chunks) = .ok chunks := by
  rw [plainParam_as_entries]
  have := parse_chunks_param_wf_token C (chunks.map fun p => (p.1, pyStrInt p.2, p.2))
    (by simpa using hne)
    (by
      intro t ht
      rcases List.mem_map.mp ht with ⟨p, hp, rfl⟩
      exact ⟨(hvalid p hp).2.1, (hvalid p hp).2.2, colon_not_mem_pyStrInt p.2,
        comma_not_mem_pyStrInt p.2, pyIntParse_pyStrInt p.2⟩)
  rw [this]
  congr 1
  rw [List.map_map]
  show List.map (fun p => ((p : Str × Int).1, p.2)) chunks = chunks
  simp

/-! ## Claim C2: round trip -/

/-- C2: for every non-empty ordered list `x` of `(opaque_id, byte_size)`
pairs with `byte_size > 0` and `opaque_id` containing no `':'` or `','`,
`parse_chunks_param (build_chunks_param x mode) = x`, both when `mode`
forces plain encoding and when it forces compressed encoding. -/
theorem chunk_param_roundtrip (C : DeflateBase64Codec)
    (chunks : List (Str × Int)) (hne : chunks ≠ [])
    (hvalid : ValidChunks chunks) :
    parse_chunks_param C (build_chunks_param C chunks (some false)) = .ok chunks ∧
    parse_chunks_param C (build_chunks_param C chunks (some true)) = .ok chunks := by
  have hplain : build_chunks_param C chunks (some false) = plainParam chunks := rfl
  have hcomp : build_chunks_param C chunks (some true) =
      C.compress_chunks (plainParam chunks) := rfl
  constructor
  · rw [hplain]
    exact parse_plainParam C chunks hne hvalid
  · rw [hcomp,
      parse_chunks_param_of_decomp (C.colon_not_mem_compress _) (C.decompress_compress _),
      ← parse_chunks_param_of_colon (colon_mem_plainParam hne)]
    exact parse_plainParam C chunks hne hvalid

/-- Witness for C2 at a concrete two-chunk list and the concrete codec. -/
theorem chunk_param_roundtrip_witness :
    ([(['a'], (1 : Int)), (['b'], 2)] : List (Str × Int)) ≠ [] ∧
    ValidChunks [(['a'], (1 : Int)), (['b'], 2)] ∧
    (parse_chunks_param escCodec
        (build_chunks_param escCodec [(['a'], (1 : Int)), (['b'], 2)] (some false)) =
      .ok [(['a'], (1 : Int)), (['b'], 2)] ∧
     parse_chunks_param escCodec
        (build_chunks_param escCodec [(['a'], (1 : Int)), (['b'], 2)] (some true)) =
      .ok [(['a'], (1 : Int)), (['b'], 2)]) :=
  ⟨by decide, by decide,
    chunk_param_roundtrip escCodec [(['a'], (1 : Int)), (['b'], 2)]
      (by decide) (by decide)⟩

/-! ## Claim C6: automatic mode selection -/

/-- C6: with `use_compression` unspecified, `build_chunks_param` produces
the compressed (colon-free) encoding exactly when the chunk count exceeds
5 or the plain string exceeds 200 characters, and the plain
(colon-containing, for a non-empty list) encoding otherwise. -/
theorem build_chunks_param_mode_selection (C : DeflateBase64Codec)
    (chunks : List (Str × Int)) :
    ((chunks.length > 5 ∨ (plainParam chunks).length > 200) →
      build_chunks_param C chunks none = C.compress_chunks (plainParam chunks) ∧
      ':' ∉ build_chunks_param C chunks none) ∧
    (chunks.length ≤ 5 → (plainParam chunks).length ≤ 200 →
      build_chunks_param C chunks none = plainParam chunks ∧
      (chunks ≠ [] → ':' ∈ build_chunks_param C chunks none)) := by
  have hb : build_chunks_param C chunks none =
      if (decide (chunks.length > 5) || decide ((plainParam chunks).length > 200)) = true
      then C.compress_chunks (plainParam chunks) else plainParam chunks := rfl
  constructor
  · intro h
    have huc : (decide (chunks.length > 5) ||
        decide ((plainParam chunks).length > 200)) = true := by
      rcases h with h | h <;> simp [h]
    rw [hb, if_pos huc]
    exact ⟨rfl, C.colon_not_mem_compress _⟩
  · intro h1 h2
    have huc : (decide (chunks.length > 5) ||
        decide ((plainParam chunks).length > 200)) = false := by
      have hn1 : ¬ chunks.length > 5 := by omega
      have hn2 : ¬ (plainParam chunks).length > 200 := by omega
      simp [hn1, hn2]
    rw [hb, huc]
    exact ⟨by simp, fun hne => by simpa using colon_mem_plainParam hne⟩

/-! ## Claim C9: the empty chunk list -/

/-- C9: encoding the empty list with unspecified mode yields the empty
string (plain mode); decoding the empty string fails with a decompression
error (it is auto-detected as compressed); under forced compressed mode
the empty list round-trips to the empty list. -/
theorem empty_chunk_list_encoding (C : DeflateBase64Codec) :
    build_chunks_param C [] none = [] ∧
    parse_chunks_param C [] = .error (.decompressFailed []) ∧
    parse_chunks_param C (build_chunks_param C [] (some true)) = .ok [] := by
  refine ⟨rfl, ?_, ?_⟩
  · exact parse_chunks_param_of_decomp_fail (by simp) C.decompress_nil
  · have hb : build_chunks_param C [] (some true) = C.compress_chunks [] := rfl
    rw [hb, parse_chunks_param_of_decomp (C.colon_not_mem_compress [])
      (C.decompress_compress [])]
    rfl

/-! ## Claim C10: sizes are not validated -/

/-- C10: decoding a well-formed token returns whatever integers its size
fields parse to — no positivity check is applied (the witness decodes the
single entry `a:-5` to `("a", -5)`). -/
theorem parse_chunks_param_no_size_validation (C : DeflateBase64Codec)
    (entries : List (Str × Str × Int)) (hne : entries ≠ [])
    (h : ∀ t ∈ entries, ':' ∉ t.1 ∧ ',' ∉ t.1 ∧ ':' ∉ t.2.1 ∧ ',' ∉ t.2.1 ∧
      pyIntParse t.2.1 = some t.2.2) :
    parse_chunks_param C (joinComma (entries.map fun t => t.1 ++ ':' :: t.2.1)) =
      .ok (entries.map fun t => (t.1, t.2.2)) :=
  parse_chunks_param_wf_token C entries hne h

/-- Witness for C10: `a:-5` decodes to the pair `("a", -5)`. -/
theorem parse_chunks_param_no_size_validation_witness :
    ([(['a'], ['-', '5'], (-5 : Int))] : List (Str × Str × Int)) ≠ [] ∧
    (∀ t ∈ ([(['a'], ['-', '5'], (-5 : Int))] : List (Str × Str × Int)),
      ':' ∉ t.1 ∧ ',' ∉ t.1 ∧ ':' ∉ t.2.1 ∧ ',' ∉ t.2.1 ∧
      pyIntParse t.2.1 = some t.2.2) ∧
    parse_chunks_param escCodec
        (joinComma (([(['a'], ['-', '5'], (-5 : Int))] :
          List (Str × Str × Int)).map fun t => t.1 ++ ':' :: t.2.1)) =
      .ok [(['a'], (-5 : Int))] :=
  ⟨by decide, by decide,
    parse_chunks_param_no_size_validation escCodec
      [(['a'], ['-', '5'], (-5 : Int))] (by decide) (by decide)⟩

/-! ## Claim C4: error reporting on malformed tokens -/

theorem parseChunkEntries_cons_nil (rest : List Str) :
    parseChunkEntries ([] :: rest) = parseChunkEntries rest := by
  simp [parseChunkEntries]

theorem segEntry_nil : segEntry [] = none := rfl

theorem segEntry_two {seg a b : Str} (hsp : pySplit ':' seg = [a, b]) :
    segEntry seg = (pyIntParse b).map (fun n => (a, n)) := by
  unfold segEntry
  rw [hsp]

theorem segErr_two {seg a b : Str} (hsp : pySplit ':' seg = [a, b]) :
    segErr seg = .invalidSize b := by
  unfold segErr
  rw [hsp]

theorem parseChunkEntries_cons_wf {seg : Str} {fid : Str} {n : Int}
    (rest : List Str) (hnil : seg ≠ []) (hent : segEntry seg = some (fid, n)) :
    parseChunkEntries (seg :: rest) =
      (parseChunkEntries rest).map (fun l => (fid, n) :: l) := by
  rcases hsp : pySplit ':' seg with _ | ⟨a, _ | ⟨b, _ | ⟨c, t⟩⟩⟩
  · rw [show segEntry seg = none from by unfold segEntry; rw [hsp]] at hent
    cases hent
  · rw [show segEntry seg = none from by unfold segEntry; rw [hsp]] at hent
    cases hent
  · rw [segEntry_two hsp] at hent
    rcases hpi : pyIntParse b with _ | m <;> rw [hpi] at hent
    · cases hent
    · simp only [Option.map] at hent
      rcases Option.some.inj hent with h
      rcases Prod.mk.injEq .. ▸ h with ⟨rfl, rfl⟩
      simp only [parseChunkEntries, if_neg hnil, hsp, hpi]
  · rw [show segEntry seg = none from by unfold segEntry; rw [hsp]] at hent
    cases hent

theorem parseChunkEntries_cons_bad {seg : Str} (rest : List Str)
    (hnil : seg ≠ []) (hbad : segWellFormed seg = false) :
    parseChunkEntries (seg :: rest) = .error (segErr seg) := by
  unfold segWellFormed at hbad
  rcases hsp : pySplit ':' seg with _ | ⟨a, _ | ⟨b, _ | ⟨c, t⟩⟩⟩
  · rw [show segErr seg = .invalidFormat seg from by unfold segErr; rw [hsp]]
    simp only [parseChunkEntries, if_neg hnil, hsp]
  · rw [show segErr seg = .invalidFormat seg from by unfold segErr; rw [hsp]]
    simp only [parseChunkEntries, if_neg hnil, hsp]
  · rw [segEntry_two hsp] at hbad
    rcases hpi : pyIntParse b with _ | m
    · rw [segErr_two hsp]
      simp only [parseChunkEntries, if_neg hnil, hsp, hpi]
    · rw [hpi] at hbad
      exact absurd hbad (by simp)
  · rw [show segErr seg = .invalidFormat seg from by unfold segErr; rw [hsp]]
    simp only [parseChunkEntries, if_neg hnil, hsp]

theorem parseChunkEntries_ok_of_wf (segs : List Str)
    (h : ∀ seg ∈ segs, seg = [] ∨ segWellFormed seg = true) :
    parseChunkEntries segs = .ok (segs.filterMap segEntry) := by
  induction segs with
  | nil => rfl
  | cons seg rest ih =>
    have hrest := ih (fun x hx => h x (List.mem_cons_of_mem seg hx))
    by_cases hnil : seg = []
    · subst hnil
      rw [parseChunkEntries_cons_nil, hrest,
        List.filterMap_cons_none segEntry_nil]
    · have hwf := (h seg (List.mem_cons_self seg rest)).resolve_left hnil
      rcases Option.isSome_iff_exists.mp hwf with ⟨⟨fid, n⟩, hent⟩
      rw [parseChunkEntries_cons_wf rest hnil hent, hrest,
        List.filterMap_cons_some hent]
      rfl

theorem parseChunkEntries_err_of_bad (segs : List Str)
    (h : ∃ seg ∈ segs, seg ≠ [] ∧ segWellFormed seg = false) :
    ∃ seg ∈ segs, seg ≠ [] ∧ segWellFormed seg = false ∧
      parseChunkEntries segs = .error (segErr seg) := by
  induction segs with
  | nil =>
    rcases h with ⟨seg, hmem, _⟩
    cases hmem
  | cons seg rest ih =>
    by_cases hnil : seg = []
    · subst hnil
      have hr : ∃ s ∈ rest, s ≠ [] ∧ segWellFormed s = false := by
        rcases h with ⟨s, hmem, hs⟩
        rcases List.mem_cons.mp hmem with rfl | hmem
        · exact absurd rfl hs.1
        · exact ⟨s, hmem, hs⟩
      rcases ih hr with ⟨s, hmem, hs1, hs2, heq⟩
      exact ⟨s, List.mem_cons_of_mem _ hmem, hs1, hs2,
        by rw [parseChunkEntries_cons_nil, heq]⟩
    · by_cases hwf : segWellFormed seg
      · have hr : ∃ s ∈ rest, s ≠ [] ∧ segWellFormed s = false := by
          rcases h with ⟨s, hmem, hs⟩
          rcases List.mem_cons.mp hmem with rfl | hmem
          · rw [hwf] at hs
            exact absurd hs.2 (by simp)
          · exact ⟨s, hmem, hs⟩
        rcases Option.isSome_iff_exists.mp hwf with ⟨⟨fid, n⟩, hent⟩
        rcases ih hr with ⟨s, hmem, hs1, hs2, heq⟩
        refine ⟨s, List.mem_cons_of_mem _ hmem, hs1, hs2, ?_⟩
        rw [parseChunkEntries_cons_wf rest hnil hent, heq]
        rfl
      · exact ⟨seg, List.mem_cons_self seg rest, hnil, by simpa using hwf,
          parseChunkEntries_cons_bad rest hnil (by simpa using hwf)⟩

/-- C4 (amended): a decompression failure, a non-empty segment with the
wrong number of colon-separated parts, and a non-integer size all raise a
`ValueError` carrying the offending segment; a fully well-formed token
decodes to exactly its non-empty segments' entries — but empty segments
between commas are silently skipped (see the counterexample). -/
theorem parse_chunks_param_error_reporting (C : DeflateBase64Codec) (s : Str) :
    (':' ∉ s → C.decompress_chunks s = none →
      parse_chunks_param C s = .error (.decompressFailed s)) ∧
    (∀ data, chunksData C s = some data →
      ((∀ seg ∈ pySplit ',' data, seg = [] ∨ segWellFormed seg = true) →
        parse_chunks_param C s = .ok ((pySplit ',' data).filterMap segEntry)) ∧
      ((∃ seg ∈ pySplit ',' data, seg ≠ [] ∧ segWellFormed seg = false) →
        ∃ seg ∈ pySplit ',' data, seg ≠ [] ∧ segWellFormed seg = false ∧
          parse_chunks_param C s = .error (segErr seg))) := by
  refine ⟨parse_chunks_param_of_decomp_fail, ?_⟩
  intro data hdata
  have hps : parse_chunks_param C s = parseChunkEntries (pySplit ',' data) := by
    unfold parse_chunks_param
    rw [hdata]
  constructor
  · intro hok
    rw [hps]
    exact parseChunkEntries_ok_of_wf _ hok
  · intro hbad
    rcases parseChunkEntries_err_of_bad _ hbad with ⟨seg, hmem, h1, h2, heq⟩
    exact ⟨seg, hmem, h1, h2, by rw [hps, heq]⟩

/-- Counterexample to C4 as stated: the token `a:1,,b:2` contains an
empty segment between commas, yet it decodes successfully with that entry
silently omitted. -/
theorem parse_chunks_param_drops_empty_segment :
    parse_chunks_param escCodec "a:1,,b:2".toList =
      .ok [("a".toList, 1), ("b".toList, 2)] ∧
    [] ∈ pySplit ',' "a:1,,b:2".toList :=
  ⟨rfl, by decide⟩

/-! ## Lemmas: the finalize-upload state machine -/

theorem runSteps_append (p q : List FStep) :
    ∀ st : DbState, runSteps (p ++ q) st = runSteps p st ++ runSteps q (applyAll p st) := by
  induction p with
  | nil => intro st; rfl
  | cons s rest ih =>
    intro st
    simp only [List.cons_append, runSteps, applyAll, List.foldl_cons, List.append_eq]
    rw [ih (applyStep st s)]
    rfl

theorem applyAll_dels (l : List VideoChunk) :
    ∀ (c rest : List VideoChunk), applyAll (l.map .del) (c, l ++ rest) = (c, rest) := by
  induction l with
  | nil => intro c rest; rfl
  | cons a t ih =>
    intro c rest
    have hstep : applyStep (c, (a :: t) ++ rest) (.del a) = (c, t ++ rest) := by
      simp only [applyStep, List.cons_append, List.erase_cons_head]
    simp only [List.map_cons, applyAll, List.foldl_cons]
    rw [show applyStep (c, a :: t ++ rest) (.del a) = (c, t ++ rest) from hstep]
    exact ih c rest

theorem applyAll_adds (rows : List VideoChunk) :
    ∀ (c s : List VideoChunk), applyAll (rows.map .add) (c, s) = (c, s ++ rows) := by
  induction rows with
  | nil => intro c s; simp [applyAll]
  | cons r t ih =>
    intro c s
    simp only [List.map_cons, applyAll, List.foldl_cons]
    have : applyStep (c, s) (.add r) = (c, s ++ [r]) := rfl
    rw [this]
    have := ih c (s ++ [r])
    simp only [applyAll] at this
    rw [this, List.append_assoc]
    rfl

theorem runSteps_fst_of_no_commit (steps : List FStep)
    (h : ∀ s ∈ steps, s ≠ FStep.commit) :
    ∀ st : DbState, ∀ x ∈ runSteps steps st, x.1 = st.1 := by
  induction steps with
  | nil => intro st x hx; cases hx
  | cons s rest ih =>
    intro st x hx
    have hfst : (applyStep st s).1 = st.1 := by
      cases s with
      | del r => rfl
      | add r => rfl
      | commit => exact absurd rfl (h .commit (List.mem_cons_self _ _))
    rcases List.mem_cons.mp hx with rfl | hx
    · exact hfst
    · rw [ih (fun t ht => h t (List.mem_cons_of_mem s ht)) (applyStep st s) x hx]
      exact hfst

theorem observableStates_spelled (existing : List VideoChunk) (req : List ChunkInfo) :
    observableStates existing req =
      existing :: ((runSteps (existing.map .del) (existing, existing)).map Prod.fst
        ++ [[]]
        ++ (runSteps ((newRowsOf req).map .add) ([], [])).map Prod.fst
        ++ [newRowsOf req]) := by
  have hprog : finalizeProgram existing req =
      existing.map .del ++
        ([FStep.commit] ++ ((newRowsOf req).map .add ++ [FStep.commit])) := by
    unfold finalizeProgram
    simp [List.append_assoc]
  have hdels : applyAll (existing.map .del) (existing, existing) = (existing, []) := by
    have := applyAll_dels existing existing []
    rwa [List.append_nil] at this
  have hadds : applyAll ((newRowsOf req).map .add) (([] : List VideoChunk), []) =
      ([], newRowsOf req) := by
    have := applyAll_adds (newRowsOf req) [] []
    rwa [List.nil_append] at this
  unfold observableStates
  rw [hprog, runSteps_append, hdels]
  rw [show runSteps ([FStep.commit] ++ ((newRowsOf req).map .add ++ [FStep.commit]))
        (existing, ([] : List VideoChunk)) =
      ((([] : List VideoChunk), ([] : List VideoChunk)) : DbState) ::
        runSteps ((newRowsOf req).map .add ++ [FStep.commit]) ([], []) from rfl]
  rw [runSteps_append, hadds]
  rw [show runSteps [FStep.commit] ((([] : List VideoChunk), newRowsOf req) : DbState) =
    [(newRowsOf req, newRowsOf req)] from rfl]
  simp [List.append_assoc]

theorem mem_observableStates {existing : List VideoChunk} {req : List ChunkInfo}
    {st : List VideoChunk} (hst : st ∈ observableStates existing req) :
    st = existing ∨ st = [] ∨ st = newRowsOf req := by
  rw [observableStates_spelled] at hst
  rcases List.mem_cons.mp hst with rfl | hst
  · exact Or.inl rfl
  rcases List.mem_append.mp hst with hst | hst
  rotate_left
  · rcases List.mem_singleton.mp hst with rfl
    exact Or.inr (Or.inr rfl)
  rcases List.mem_append.mp hst with hst | hst
  rotate_left
  · rcases List.mem_map.mp hst with ⟨x, hx, rfl⟩
    have := runSteps_fst_of_no_commit ((newRowsOf req).map .add)
      (by intro s hs; rcases List.mem_map.mp hs with ⟨r, _, rfl⟩; simp)
      ([], []) x hx
    exact Or.inr (Or.inl this)
  rcases List.mem_append.mp hst with hst | hst
  · rcases List.mem_map.mp hst with ⟨x, hx, rfl⟩
    have := runSteps_fst_of_no_commit (existing.map .del)
      (by intro s hs; rcases List.mem_map.mp hs with ⟨r, _, rfl⟩; simp)
      (existing, existing) x hx
    exact Or.inl this
  · rcases List.mem_singleton.mp hst with rfl
    exact Or.inr (Or.inl rfl)

theorem empty_mem_observableStates (existing : List VideoChunk)
    (req : List ChunkInfo) : [] ∈ observableStates existing req := by
  rw [observableStates_spelled]
  exact List.mem_cons_of_mem _ (List.mem_append_left _
    (List.mem_append_left _ (List.mem_append_right _ (List.mem_singleton.mpr rfl))))

theorem getLast_observableStates (existing : List VideoChunk)
    (req : List ChunkInfo) :
    (observableStates existing req).getLast? = some (newRowsOf req) := by
  rw [observableStates_spelled]
  rw [show existing :: ((runSteps (existing.map .del) (existing, existing)).map Prod.fst
        ++ [[]]
        ++ (runSteps ((newRowsOf req).map .add) ([], [])).map Prod.fst
        ++ [newRowsOf req]) =
      (existing :: ((runSteps (existing.map .del) (existing, existing)).map Prod.fst
        ++ [[]]
        ++ (runSteps ((newRowsOf req).map .add) ([], [])).map Prod.fst))
        ++ [newRowsOf req] from by simp [List.append_assoc]]
  exact List.getLast?_concat _

theorem finalize_ok_inv {existing : List VideoChunk} {req : List ChunkInfo}
    {res : FinalizeResult}
    (hok : finalize_episode_upload true existing req = .ok res) :
    res = ⟨observableStates existing req, req.length⟩ := by
  have h : finalize_episode_upload true existing req =
      .ok ⟨observableStates existing req, req.length⟩ := rfl
  rw [h] at hok
  exact (Except.ok.inj hok).symm

/-! ## Claim C1: states observable during a finalize call -/

/-- C1 (amended): during a successful finalize call a reader observes only
the complete old set, the empty set, or the complete new set — never a mix
of old and new records; but the empty set is among the reachable committed
states (the deletion of the old rows is committed before the new rows are
inserted), so a reader can observe zero chunks for an episode that
previously had chunks. -/
theorem finalize_states_no_mix (existing : List VideoChunk)
    (req : List ChunkInfo) (res : FinalizeResult)
    (hok : finalize_episode_upload true existing req = .ok res) :
    (∀ st ∈ res.states, st = existing ∨ st = [] ∨ st = newRowsOf req) ∧
    [] ∈ res.states := by
  rcases finalize_ok_inv hok with rfl
  exact ⟨fun st hst => mem_observableStates hst,
    empty_mem_observableStates existing req⟩

/-- Witness for C1 (amended) at one existing row and one requested chunk. -/
theorem finalize_states_no_mix_witness :
    finalize_episode_upload true [⟨0, ['x'], 1⟩] [⟨0, ['y'], some 2, none⟩] =
      .ok ⟨observableStates [⟨0, ['x'], 1⟩] [⟨0, ['y'], some 2, none⟩], 1⟩ ∧
    ((∀ st ∈ (FinalizeResult.mk
        (observableStates [⟨0, ['x'], 1⟩] [⟨0, ['y'], some 2, none⟩]) 1).states,
      st = [⟨0, ['x'], 1⟩] ∨ st = [] ∨ st = newRowsOf [⟨0, ['y'], some 2, none⟩]) ∧
     [] ∈ (FinalizeResult.mk
        (observableStates [⟨0, ['x'], 1⟩] [⟨0, ['y'], some 2, none⟩]) 1).states) :=
  ⟨rfl, finalize_states_no_mix [⟨0, ['x'], 1⟩] [⟨0, ['y'], some 2, none⟩] _ rfl⟩

/-- Counterexample to C1 as stated: with one existing chunk row and one
requested chunk, the zero-chunk committed state is reachable mid-call and
is neither the (non-empty) old set nor the (non-empty) new set. -/
theorem finalize_exposes_empty_state :
    [] ∈ observableStates [⟨0, ['x'], 1⟩] [⟨0, ['y'], some 2, none⟩] ∧
    ([] : List VideoChunk) ≠ [⟨0, ['x'], 1⟩] ∧
    ([] : List VideoChunk) ≠ newRowsOf [⟨0, ['y'], some 2, none⟩] :=
  ⟨by decide, by decide, by decide⟩

/-! ## Claim C3: (absent) validation of the finalize chunk list -/

/-- C3 (amended): the only request `finalize_episode_upload` rejects is
one naming a missing episode (404).  The chunk list itself is not
validated: every list — empty or with non-contiguous `chunk_index`
values — is accepted, the existing rows are deleted, the supplied rows
are persisted as-is as the final committed state, and the response
reports the list's length. -/
theorem finalize_no_validation (existing : List VideoChunk)
    (req : List ChunkInfo) :
    finalize_episode_upload false existing req = .error 404 ∧
    ∃ res, finalize_episode_upload true existing req = .ok res ∧
      res.chunks_count = req.length ∧
      res.states.getLast? = some (newRowsOf req) :=
  ⟨rfl, ⟨⟨observableStates existing req, req.length⟩, rfl, rfl,
    getLast_observableStates existing req⟩⟩

/-- Counterexample to C3 as stated: an empty chunk list is accepted (and
wipes the existing rows), and a list whose only `chunk_index` is 5 (not
contiguous from 0) is accepted and persisted. -/
theorem finalize_accepts_empty_and_gaps :
    (∃ res, finalize_episode_upload true [⟨0, ['x'], 1⟩] [] = .ok res ∧
      res.chunks_count = 0 ∧ res.states.getLast? = some []) ∧
    (∃ res, finalize_episode_upload true [] [⟨5, ['y'], some 1, none⟩] = .ok res ∧
      res.chunks_count = 1 ∧
      res.states.getLast? = some [⟨5, ['y'], 1⟩]) :=
  ⟨⟨_, rfl, rfl, by decide⟩, ⟨_, rfl, rfl, by decide⟩⟩

/-! ## Claim C8: positivity of persisted chunk sizes -/

/-- C8 (amended): a persisted chunk row's `chunk_size` is the `or`-chain
`file_size or chunk_size or 0` of its request entry, so every committed
state consists of positive-size rows only under the additional
assumptions that the pre-existing rows had positive sizes and every
request entry supplies a non-zero `file_size` or `chunk_size`; without
them a zero-size row is stored (see the counterexample). -/
theorem finalize_positive_sizes_conditional (existing : List VideoChunk)
    (req : List ChunkInfo) (res : FinalizeResult)
    (hok : finalize_episode_upload true existing req = .ok res)
    (hex : ∀ r ∈ existing, 0 < r.chunk_size)
    (hreq : ∀ ci ∈ req, 0 < pyOrInt ci.file_size (pyOrInt ci.chunk_size 0)) :
    ∀ st ∈ res.states, ∀ r ∈ st, 0 < r.chunk_size := by
  rcases finalize_ok_inv hok with rfl
  intro st hst r hr
  rcases mem_observableStates hst with rfl | rfl | rfl
  · exact hex r hr
  · cases hr
  · rcases List.mem_map.mp hr with ⟨ci, hci, rfl⟩
    exact hreq ci hci

/-- Witness for C8 (amended). -/
theorem finalize_positive_sizes_conditional_witness :
    finalize_episode_upload true [] [⟨0, ['x'], some 5, none⟩] =
      .ok ⟨observableStates [] [⟨0, ['x'], some 5, none⟩], 1⟩ ∧
    (∀ r ∈ ([] : List VideoChunk), 0 < r.chunk_size) ∧
    (∀ ci ∈ [(⟨0, ['x'], some 5, none⟩ : ChunkInfo)],
      0 < pyOrInt ci.file_size (pyOrInt ci.chunk_size 0)) ∧
    ∀ st ∈ (FinalizeResult.mk
        (observableStates [] [⟨0, ['x'], some 5, none⟩]) 1).states,
      ∀ r ∈ st, 0 < r.chunk_size :=
  ⟨rfl, by decide, by decide,
    finalize_positive_sizes_conditional [] [⟨0, ['x'], some 5, none⟩] _ rfl
      (by decide) (by decide)⟩

/-- Counterexample to C8 as stated: a request chunk with `file_size` and
`chunk_size` both absent is accepted and a row with `chunk_size = 0` is
persisted as the final committed state. -/
theorem finalize_stores_zero_size :
    ∃ res, finalize_episode_upload true [] [⟨0, ['x'], none, none⟩] = .ok res ∧
      res.states.getLast? = some [⟨0, ['x'], 0⟩] :=
  ⟨_, rfl, by decide⟩

/-! ## Claim C5: splitter coverage -/

theorem splitIntoChunks_nil : splitIntoChunks [] = [] := by
  rw [splitIntoChunks.eq_def]

theorem splitIntoChunks_cons (b : Byte) (bs : List Byte) :
    splitIntoChunks (b :: bs) =
      ((b :: bs).take CHUNK_SIZE) :: splitIntoChunks ((b :: bs).drop CHUNK_SIZE) := by
  rw [splitIntoChunks.eq_def]

theorem splitIntoChunks_eq_nil_iff (l : List Byte) :
    splitIntoChunks l = [] ↔ l = [] := by
  cases l with
  | nil => simp [splitIntoChunks_nil]
  | cons b bs => simp [splitIntoChunks_cons]

theorem CHUNK_SIZE_pos : 0 < CHUNK_SIZE := by decide

theorem ceil_div_succ (L C : Nat) (hC : 0 < C) (hL : 0 < L) :
    (L - C + C - 1) / C + 1 = (L + C - 1) / C := by
  have h3 : L + C - 1 = (L - 1) + C := by omega
  rw [h3, Nat.add_div_right _ hC]
  rcases le_or_lt L C with h | h
  · have h1 : L - C + C - 1 = C - 1 := by omega
    rw [h1, Nat.div_eq_of_lt (by omega), Nat.div_eq_of_lt (by omega)]
  · have h1 : L - C + C - 1 = L - 1 := by omega
    rw [h1]

theorem splitIntoChunks_length (l : List Byte) :
    (splitIntoChunks l).length = (l.length + CHUNK_SIZE - 1) / CHUNK_SIZE := by
  induction l using splitIntoChunks.induct with
  | case1 =>
    have hC := CHUNK_SIZE_pos
    simp only [splitIntoChunks_nil, List.length_nil, Nat.zero_add]
    exact (Nat.div_eq_of_lt (by omega)).symm
  | case2 b bs ih =>
    rw [splitIntoChunks_cons, List.length_cons, ih, List.length_drop]
    exact ceil_div_succ (b :: bs).length CHUNK_SIZE CHUNK_SIZE_pos (by simp)

theorem splitIntoChunks_flatten (l : List Byte) :
    (splitIntoChunks l).flatten = l := by
  induction l using splitIntoChunks.induct with
  | case1 => rw [splitIntoChunks_nil]; rfl
  | case2 b bs ih =>
    rw [splitIntoChunks_cons, List.flatten_cons, ih, List.take_append_drop]

theorem splitIntoChunks_dropLast (l : List Byte) :
    ∀ c ∈ (splitIntoChunks l).dropLast, c.length = CHUNK_SIZE := by
  induction l using splitIntoChunks.induct with
  | case1 => rw [splitIntoChunks_nil]; intro c hc; cases hc
  | case2 b bs ih =>
    rw [splitIntoChunks_cons]
    by_cases htail : splitIntoChunks ((b :: bs).drop CHUNK_SIZE) = []
    · rw [htail]
      intro c hc
      cases hc
    · rw [List.dropLast_cons_of_ne_nil htail]
      intro c hc
      rcases List.mem_cons.mp hc with rfl | hc
      · have hdrop : (b :: bs).drop CHUNK_SIZE ≠ [] := by
          intro h
          exact htail (by rw [h, splitIntoChunks_nil])
        have hlen : CHUNK_SIZE ≤ (b :: bs).length := by
          by_contra hlt
          exact hdrop (List.drop_eq_nil_of_le (by omega))
        rw [List.length_take]
        exact Nat.min_eq_left hlen
      · exact ih c hc

theorem getLast?_cons_of_ne_nil (a : List Byte) {l : List (List Byte)}
    (h : l ≠ []) : (a :: l).getLast? = l.getLast? := by
  cases l with
  | nil => exact absurd rfl h
  | cons x t => exact List.getLast?_cons_cons ..

theorem splitIntoChunks_getLast (l : List Byte) (hne : l ≠ []) :
    ∃ lst, (splitIntoChunks l).getLast? = some lst ∧
      lst.length = (if l.length % CHUNK_SIZE = 0 then CHUNK_SIZE
        else l.length % CHUNK_SIZE) := by
  induction l using splitIntoChunks.induct with
  | case1 => exact absurd rfl hne
  | case2 b bs ih =>
    rw [splitIntoChunks_cons]
    by_cases hdrop : (b :: bs).drop CHUNK_SIZE = []
    · rw [hdrop, splitIntoChunks_nil]
      refine ⟨(b :: bs).take CHUNK_SIZE, rfl, ?_⟩
      have hlen : (b :: bs).length ≤ CHUNK_SIZE := by
        have h1 := List.length_drop CHUNK_SIZE (b :: bs)
        rw [hdrop] at h1
        simp only [List.length_nil] at h1
        omega
      have hpos : 0 < (b :: bs).length := by simp
      rw [List.length_take]
      rcases Nat.lt_or_ge (b :: bs).length CHUNK_SIZE with hlt | hge
      · rw [if_neg (by rw [Nat.mod_eq_of_lt hlt]; omega), Nat.mod_eq_of_lt hlt]
        omega
      · have heq : (b :: bs).length = CHUNK_SIZE := by omega
        rw [heq]
        simp
    · have htail : splitIntoChunks ((b :: bs).drop CHUNK_SIZE) ≠ [] := by
        rw [Ne, splitIntoChunks_eq_nil_iff]
        exact hdrop
      rw [getLast?_cons_of_ne_nil _ htail]
      rcases ih hdrop with ⟨lst, hl, hlen⟩
      refine ⟨lst, hl, ?_⟩
      rw [hlen, List.length_drop]
      have hgt : CHUNK_SIZE < (b :: bs).length := by
        have := List.length_drop CHUNK_SIZE (b :: bs)
        by_contra hle
        exact hdrop (List.drop_eq_nil_of_le (by omega))
      have hmod : ((b :: bs).length - CHUNK_SIZE) % CHUNK_SIZE =
          (b :: bs).length % CHUNK_SIZE := by
        conv_rhs => rw [show (b :: bs).length =
          ((b :: bs).length - CHUNK_SIZE) + CHUNK_SIZE from by omega]
        rw [Nat.add_mod_right]
      rw [hmod]

/-- C5: the splitter produces exactly `⌈L / CHUNK_SIZE⌉` chunks (0 when
the input is empty), whose concatenation is the input byte-for-byte; every
chunk but the last has length `CHUNK_SIZE` and the last has length
`L mod CHUNK_SIZE` (or `CHUNK_SIZE` when `L > 0` divides evenly); the
`chunks_info` returned by `upload_file_in_chunks` lists those chunks'
sizes under contiguous indices `0, 1, ...` in order. -/
theorem splitter_coverage (file : List Byte) :
    (splitIntoChunks file).length = (file.length + CHUNK_SIZE - 1) / CHUNK_SIZE ∧
    (splitIntoChunks file).flatten = file ∧
    (∀ c ∈ (splitIntoChunks file).dropLast, c.length = CHUNK_SIZE) ∧
    (file = [] → splitIntoChunks file = []) ∧
    (file ≠ [] → ∃ lst, (splitIntoChunks file).getLast? = some lst ∧
      lst.length = (if file.length % CHUNK_SIZE = 0 then CHUNK_SIZE
        else file.length % CHUNK_SIZE)) ∧
    (∀ put : Nat → List Byte → Str,
      (upload_file_in_chunks put file).map (fun t => t.1) =
        List.range (splitIntoChunks file).length ∧
      (upload_file_in_chunks put file).map (fun t => t.2.2) =
        (splitIntoChunks file).map List.length) := by
  refine ⟨splitIntoChunks_length file, splitIntoChunks_flatten file,
    splitIntoChunks_dropLast file, ?_, splitIntoChunks_getLast file, ?_⟩
  · intro h; rw [h, splitIntoChunks_nil]
  · intro put
    constructor
    · unfold upload_file_in_chunks
      rw [List.map_map]
      exact List.enum_map_fst _
    · unfold upload_file_in_chunks
      rw [List.map_map]
      have : ((fun t : Nat × Str × Nat => t.2.2) ∘
          fun p : Nat × List Byte => (p.1, put p.1 p.2, p.2.length)) =
          (List.length ∘ Prod.snd) := rfl
      rw [this, ← List.map_map, List.enum_map_snd]

/-! ## Claim C7: range reconstruction exactness -/

theorem rangeSlices_spec (chunks : List (List Byte)) :
    ∀ (pos s e : Nat), (∀ c ∈ chunks, c ≠ []) → s ≤ e →
      e + 1 ≤ pos + (chunks.flatten).length →
      (rangeSlices s e pos chunks).flatten =
        ((chunks.flatten).take (e + 1 - pos)).drop (s - pos) := by
  induction chunks with
  | nil =>
    intro pos s e hc hse hbound
    simp [rangeSlices]
  | cons c rest ih =>
    intro pos s e hc hse hbound
    have hcne : c ≠ [] := hc c (List.mem_cons_self c rest)
    have hclen : 0 < c.length := List.length_pos.mpr hcne
    rw [List.flatten_cons, List.length_append] at hbound
    have hrest : ∀ x ∈ rest, x ≠ [] := fun x hx => hc x (List.mem_cons_of_mem c hx)
    by_cases h1 : e < pos
    · simp only [rangeSlices, if_pos h1]
      rw [show e + 1 - pos = 0 from by omega]
      simp
    · by_cases h2 : pos + c.length - 1 < s
      · -- the chunk lies entirely before the range and is skipped
        have hs : pos + c.length ≤ s := by omega
        simp only [rangeSlices, if_neg h1, if_pos h2]
        rw [ih (pos + c.length) s e hrest hse (by omega)]
        symm
        rw [List.flatten_cons, List.take_append_eq_append_take,
          List.drop_append_eq_append_drop]
        have hAlen : (c.take (e + 1 - pos)).length = c.length := by
          rw [List.length_take]
          exact Nat.min_eq_right (by omega)
        rw [List.drop_eq_nil_of_le
            (by rw [hAlen]; omega : (c.take (e + 1 - pos)).length ≤ s - pos),
          List.nil_append, hAlen,
          show s - pos - c.length = s - (pos + c.length) from by omega,
          show e + 1 - pos - c.length = e + 1 - (pos + c.length) from by omega]
      · -- the chunk overlaps the range
        have hpos_le_e : pos ≤ e := by omega
        have hs_lt : s < pos + c.length := by omega
        simp only [rangeSlices, if_neg h1, if_neg h2]
        by_cases h3 : e + 1 ≤ pos + c.length
        · -- the range ends inside this chunk; iteration stops afterwards
          have hrec : rangeSlices s e (pos + c.length) rest = [] := by
            cases rest with
            | nil => rfl
            | cons d t =>
              simp only [rangeSlices]
              rw [if_pos (by omega)]
          rw [hrec]
          simp only [List.flatten_cons, List.flatten_nil, List.append_nil]
          have hmin : min c.length (e - pos + 1) = e + 1 - pos := by omega
          rw [hmin]
          symm
          rw [List.take_append_eq_append_take,
            show e + 1 - pos - c.length = 0 from by omega, List.take_zero,
            List.append_nil]
        · -- the range continues past this chunk
          have hmin : min c.length (e - pos + 1) = c.length := by omega
          rw [hmin, List.take_length, List.flatten_cons]
          rw [ih (pos + c.length) s e hrest hse (by omega)]
          rw [show s - (pos + c.length) = 0 from by omega, List.drop_zero]
          symm
          rw [List.flatten_cons, List.take_append_eq_append_take,
            List.take_of_length_le (by omega : c.length ≤ e + 1 - pos),
            List.drop_append_eq_append_drop]
          rw [show s - pos - c.length = 0 from by omega, List.drop_zero,
            show e + 1 - pos - c.length = e + 1 - (pos + c.length) from by omega]

/-- C7: for chunk contents of positive size totalling `T` bytes and any
`0 ≤ start ≤ end ≤ T - 1`, the concatenation of the slices yielded by the
range-stream reconstructor equals exactly the inclusive `[start, end]`
slice of the concatenation of all chunk bytes. -/
theorem range_reconstruction_exact (chunks : List (List Byte)) (s e : Nat)
    (hc : ∀ c ∈ chunks, c ≠ []) (hse : s ≤ e)
    (hbound : e + 1 ≤ (chunks.flatten).length) :
    (rangeSlices s e 0 chunks).flatten =
      ((chunks.flatten).take (e + 1)).drop s := by
  have h := rangeSlices_spec chunks 0 s e hc hse (by omega)
  simpa using h

/-- Witness for C7 on a concrete two-chunk file and the range `[1, 3]`. -/
theorem range_reconstruction_exact_witness :
    (∀ c ∈ [[0, 1], [2, 3, 4]], c ≠ ([] : List Byte)) ∧ 1 ≤ 3 ∧
    3 + 1 ≤ (([[0, 1], [2, 3, 4]] : List (List Byte)).flatten).length ∧
    (rangeSlices 1 3 0 [[0, 1], [2, 3, 4]]).flatten =
      ((([[0, 1], [2, 3, 4]] : List (List Byte)).flatten).take (3 + 1)).drop 1 :=
  ⟨by decide, by decide, by decide,
    range_reconstruction_exact [[0, 1], [2, 3, 4]] 1 3 (by decide) (by decide)
      (by decide)⟩

